import Mathlib

/-!
Shallow embedding of the `lfq` broadcast queue (`src/lib.rs`) for a
single-threaded (sequential) execution, together with proofs of the spec's
testable properties.

Modelling conventions:
* `usize` is modelled as `Nat`; the target is a 64-bit machine
  (`target_pointer_width = "64"`), so the word size is `2 ^ 64`.
  Arithmetic that can wrap in the source (release-mode wrapping semantics)
  is modelled with an explicit `% USIZE` / `wsub`.
* Atomics are modelled as plain fields: the execution is sequential, so every
  load sees the last store, and a `compare_exchange` succeeds exactly when the
  stored value equals the expected one.
* Spin loops that can diverge in a sequential execution are modelled with
  `Option`, `none` standing for divergence (or for a `debug_assert`/panic).
* The boxed slice of cells is modelled as a function `Nat → Cell T`; only
  indices below the capacity are ever read or written (`modu` masks with
  `idx_mask`).
* `T: Default` is modelled by passing the default value `dflt` explicitly.
-/

/-- The number of values of `usize` on the 64-bit target. -/
def USIZE : Nat := 2 ^ 64

/-- `const SENTINEL_MASK: usize = 1 << 63` (64-bit target). -/
def SENTINEL_MASK : Nat := 1 <<< 63

/-- Bitwise complement `!x` on a 64-bit word. For `x < 2^64` the complement
is `2^64 - 1 - x`, which we take as the definition (all uses are below
`2^64`). -/
def unot (x : Nat) : Nat := USIZE - 1 - x

/-- Wrapping `usize` subtraction `a - b` (release-mode semantics), for
`a, b < 2^64`. -/
def wsub (a b : Nat) : Nat := (a + (USIZE - b)) % USIZE

theorem wsub_eq {a b : Nat} (hba : b ≤ a) (ha : a < USIZE) : wsub a b = a - b := by
  have hbU : b ≤ USIZE := le_trans hba (le_of_lt ha)
  have h1 : a + (USIZE - b) = (a - b) + USIZE := by omega
  have h2 : a - b < USIZE := lt_of_le_of_lt (Nat.sub_le a b) ha
  rw [wsub, h1, Nat.add_mod_right, Nat.mod_eq_of_lt h2]

/-- One smearing step `u | (u >> s)` of `round_up_to_power_of_two`. -/
def orShift (x s : Nat) : Nat := x ||| (x >>> s)

/-- `fn round_up_to_power_of_two(mut u: usize) -> usize` for the 64-bit
target: `u -= 1`, six or-shift smearing steps, `u += 1` (both increments
wrapping in release mode). -/
def round_up_to_power_of_two (u0 : Nat) : Nat :=
  let u := (u0 + (USIZE - 1)) % USIZE
  let u := orShift u 1
  let u := orShift u 2
  let u := orShift u 4
  let u := orShift u 8
  let u := orShift u 16
  let u := orShift u 32
  (u + 1) % USIZE

theorem orShift_testBit (x s i : Nat) :
    (orShift x s).testBit i = (x.testBit i || x.testBit (i + s)) := by
  simp [orShift, Nat.testBit_or, Nat.testBit_shiftRight, Nat.add_comm]

theorem orShift_spec {m x : Nat} {s : Nat}
    (hx : ∀ i, x.testBit i = true ↔ ∃ j, j < s ∧ m.testBit (i + j) = true) :
    ∀ i, (orShift x s).testBit i = true ↔ ∃ j, j < 2 * s ∧ m.testBit (i + j) = true := by
  intro i
  rw [orShift_testBit, Bool.or_eq_true, hx i, hx (i + s)]
  constructor
  · rintro (⟨j, hj, hb⟩ | ⟨j, hj, hb⟩)
    · exact ⟨j, by omega, hb⟩
    · exact ⟨s + j, by omega, by rwa [← Nat.add_assoc]⟩
  · rintro ⟨j, hj, hb⟩
    by_cases hjs : j < s
    · exact Or.inl ⟨j, hjs, hb⟩
    · exact Or.inr ⟨j - s, by omega, by rw [Nat.add_assoc, Nat.add_sub_cancel' (by omega)]; exact hb⟩

/-- After the six smearing steps, bit `i` is set iff some bit of `m` at
position `≥ i` (within 64 positions) is set. -/
theorem smear_testBit (m : Nat) :
    ∀ i, (orShift (orShift (orShift (orShift (orShift (orShift m 1) 2) 4) 8) 16) 32).testBit i
      = true ↔ ∃ j, j < 64 ∧ m.testBit (i + j) = true := by
  have h0 : ∀ i, m.testBit i = true ↔ ∃ j, j < 1 ∧ m.testBit (i + j) = true := by
    intro i
    constructor
    · intro h; exact ⟨0, Nat.zero_lt_one, by simpa using h⟩
    · rintro ⟨j, hj, hb⟩; interval_cases j; simpa using hb
  have h1 := orShift_spec h0
  have h2 := orShift_spec h1
  have h4 := orShift_spec h2
  have h8 := orShift_spec h4
  have h16 := orShift_spec h8
  have h32 := orShift_spec h16
  simpa using h32

/-- The smeared value of `m < 2^64` is `2 ^ m.size - 1`: all bits below the
most significant bit of `m` become set. -/
theorem smear_eq (m : Nat) (hm : m < 2 ^ 64) :
    orShift (orShift (orShift (orShift (orShift (orShift m 1) 2) 4) 8) 16) 32
      = 2 ^ m.size - 1 := by
  apply Nat.eq_of_testBit_eq
  intro i
  have hchar := smear_testBit m i
  rw [Nat.testBit_two_pow_sub_one]
  by_cases hi : i < m.size
  · have hms : 0 < m.size := Nat.zero_lt_of_lt hi
    have hm0 : 0 < m := Nat.size_pos.mp hms
    -- the top bit of `m` sits at position `m.size - 1`
    have htop : m.testBit (m.size - 1) = true := by
      have hlo : 2 ^ (m.size - 1) ≤ m := Nat.lt_size.mp (by omega)
      have hhi : m < 2 ^ m.size := Nat.lt_size_self m
      have hdiv : m / 2 ^ (m.size - 1) = 1 := by
        apply Nat.div_eq_of_lt_le (by simpa using hlo)
        have : 2 ^ m.size = 2 * 2 ^ (m.size - 1) := by
          rw [← pow_succ']
          congr 1
          omega
        omega
      rw [Nat.testBit_to_div_mod, hdiv]
      rfl
    have hsle : m.size ≤ 64 := Nat.size_le.mpr hm
    have : ∃ j, j < 64 ∧ m.testBit (i + j) = true := by
      refine ⟨m.size - 1 - i, by omega, ?_⟩
      have : i + (m.size - 1 - i) = m.size - 1 := by omega
      rw [this]; exact htop
    simp [hchar.mpr this, hi]
  · have : ∀ j, j < 64 → m.testBit (i + j) = false := by
      intro j _
      apply Nat.testBit_lt_two_pow
      calc m < 2 ^ m.size := Nat.lt_size_self m
        _ ≤ 2 ^ (i + j) := Nat.pow_le_pow_right (by omega) (by omega)
    by_cases hset : (orShift (orShift (orShift (orShift (orShift (orShift m 1) 2) 4) 8) 16) 32).testBit i = true
    · obtain ⟨j, hj, hb⟩ := hchar.mp hset
      rw [this j hj] at hb
      exact absurd hb (by simp)
    · simp only [Bool.not_eq_true] at hset
      simp [hset, hi]

/-- For `1 ≤ n ≤ 2^63`, `round_up_to_power_of_two n = 2 ^ (n-1).size`. -/
theorem round_up_eq (n : Nat) (h1 : 1 ≤ n) (h2 : n ≤ 2 ^ 63) :
    round_up_to_power_of_two n = 2 ^ (n - 1).size := by
  have hn1 : n - 1 < 2 ^ 64 := by
    have : (2:Nat) ^ 63 < 2 ^ 64 := by norm_num
    omega
  have hsub : (n + (USIZE - 1)) % USIZE = n - 1 := by
    have hU : USIZE = 2 ^ 64 := rfl
    have : n + (USIZE - 1) = (n - 1) + USIZE := by omega
    rw [this, Nat.add_mod_right, Nat.mod_eq_of_lt (by omega)]
  have hsize : (n - 1).size ≤ 63 := by
    apply Nat.size_le.mpr
    have : (2:Nat) ^ 63 ≥ n := h2
    omega
  have hpow : 2 ^ (n - 1).size < USIZE := by
    have : (2:Nat) ^ (n - 1).size ≤ 2 ^ 63 := Nat.pow_le_pow_right (by omega) hsize
    have hU : USIZE = 2 ^ 64 := rfl
    have : (2:Nat) ^ 63 < 2 ^ 64 := by norm_num
    omega
  show (orShift (orShift (orShift (orShift (orShift (orShift ((n + (USIZE - 1)) % USIZE) 1) 2) 4) 8) 16) 32 + 1) % USIZE = _
  rw [hsub, smear_eq (n - 1) hn1]
  have hp : 0 < 2 ^ (n - 1).size := Nat.pos_pow_of_pos _ (by omega)
  rw [Nat.sub_add_cancel hp, Nat.mod_eq_of_lt hpow]

/-- `struct Cell<T: Copy> { data: ICell<T>, epoch: AtomicUsize }`.
Write epochs: 0 represents default data, a positive epoch marks a completed
write. -/
structure Cell (T : Type) where
  data : T
  epoch : Nat
deriving DecidableEq

/-- `Cell::write(dat, new_epoch, epoch_increment)`: the claiming CAS expects
`new_epoch - epoch_increment` with no sentinel; sequentially it succeeds
exactly when the stored epoch equals that value, and otherwise the CAS loop
spins forever (modelled by `none`).  On success the payload is stored and the
epoch word is published as `new_epoch` (sentinel cleared); the transient
`new_epoch | SENTINEL_MASK` state is invisible to a sequential observer. -/
def Cell.write {T : Type} (c : Cell T) (dat : T) (new_epoch epoch_increment : Nat) :
    Option (Cell T) :=
  let old_epoch := wsub new_epoch epoch_increment
  if c.epoch = old_epoch then some { data := dat, epoch := new_epoch } else none

/-- `Cell::read`: non-atomic load of the payload. -/
def Cell.read {T : Type} (c : Cell T) : T := c.data

/-- Pointwise update of the slot array at index `i`. -/
def setSlot {T : Type} (f : Nat → Cell T) (i : Nat) (c : Cell T) : Nat → Cell T :=
  fun j => if j = i then c else f j

/-- `struct Queue<T> { data: Box<[Cell<T>]>, write_ptr: AtomicUsize, idx_mask: usize }`.
The slice is modelled as a function; indices `≥ idx_mask + 1` are never used. -/
structure Queue (T : Type) where
  data : Nat → Cell T
  write_ptr : Nat
  idx_mask : Nat

/-- `Queue::new(size)`: `assert!(size > 0)` is modelled by returning `none`
(panic) on `size = 0`; otherwise the capacity is rounded up to a power of
two, all cells start as `(default, epoch 0)`, and `write_ptr` starts at the
capacity (write epoch 1, index 0).  `dflt` models `T::default()`. -/
def Queue.new {T : Type} (dflt : T) (size : Nat) : Option (Queue T) :=
  if size = 0 then none
  else
    let sz := round_up_to_power_of_two size
    some { data := fun _ => { data := dflt, epoch := 0 },
           write_ptr := sz,
           idx_mask := wsub sz 1 }

/-- `Queue::size`: `idx_mask + 1`, a wrapping `usize` add (release mode):
at `idx_mask = usize::MAX` — the state left by a request above `2^63`,
where the rounding wrapped to 0 — the result wraps back to 0. -/
def Queue.size {T : Type} (q : Queue T) : Nat := (q.idx_mask + 1) % USIZE

/-- `Queue::epoch(idx) = idx & !idx_mask`. -/
def Queue.epoch {T : Type} (q : Queue T) (idx : Nat) : Nat := idx &&& unot q.idx_mask

/-- `Queue::modu(idx) = idx & idx_mask`. -/
def Queue.modu {T : Type} (q : Queue T) (idx : Nat) : Nat := idx &&& q.idx_mask

/-- `Queue::next_write_ptr`: acquire load of `write_ptr`. -/
def Queue.next_write_ptr {T : Type} (q : Queue T) : Nat := q.write_ptr

/-- `Queue::push(data)`: the CAS loop on `write_ptr` succeeds immediately in a
sequential execution, reserving `old = write_ptr` and storing `old + 1`
(wrapping); then the reserved cell is written at epoch `epoch(old)` with
increment `size`.  `none` models the unbounded spin of a failing cell CAS. -/
def Queue.push {T : Type} (q : Queue T) (data : T) : Option (Queue T) :=
  let old := q.write_ptr
  match (q.data (q.modu old)).write data (q.epoch old) q.size with
  | some cell =>
      some { q with write_ptr := (old + 1) % USIZE,
                    data := setSlot q.data (q.modu old) cell }
  | none => none

/-- `Queue::read(idx)`: validate the epoch word, load the payload, validate
again; sequentially both loads agree.  `Err(epoch)` carries the raw observed
word. -/
def Queue.read {T : Type} (q : Queue T) (idx : Nat) : Except Nat T :=
  let cell := q.data (q.modu idx)
  let e1 := cell.epoch
  if e1 ≠ q.epoch idx then .error e1
  else
    let rr := cell.read
    let e2 := cell.epoch
    if e2 ≠ q.epoch idx then .error e2 else .ok rr

/-- `Queue::try_read_latest`: `read(write_ptr - 1).ok()` (wrapping
subtraction). -/
def Queue.try_read_latest {T : Type} (q : Queue T) : Option T :=
  let idx := wsub q.write_ptr 1
  (q.read idx).toOption

/-- The backward walk of `Queue::read_latest`, starting at `idx` and
decrementing on `Err`.  The source decrements with wrapping; in a sequential
execution a reachable queue always has a readable index below `write_ptr`,
so the case `idx = 0` with a failing read (where the source would wrap
around or, in debug mode, panic) is modelled as `none` (divergence). -/
def Queue.readLatestFrom {T : Type} (q : Queue T) : Nat → Option T
  | 0 => match q.read 0 with
    | .ok d => some d
    | .error _ => none
  | idx + 1 => match q.read (idx + 1) with
    | .ok d => some d
    | .error _ => q.readLatestFrom idx

/-- `Queue::read_latest`: walk backward from `write_ptr - 1` until a read
succeeds. -/
def Queue.read_latest {T : Type} (q : Queue T) : Option T :=
  q.readLatestFrom (wsub q.write_ptr 1)

/-- `Queue::read_latest_blocking`: spin on `read(write_ptr - 1)`.
Sequentially the state never changes inside the spin, so the loop either
succeeds at once or diverges (`none`). -/
def Queue.read_latest_blocking {T : Type} (q : Queue T) : Option T :=
  let idx := wsub q.write_ptr 1
  match q.read idx with
  | .ok d => some d
  | .error _ => none

/-- `struct QueueClient<T> { queue: Arc<Queue<T>>, to_read: usize }`.
The shared `Arc` is modelled by explicit state passing: operations that
mutate the queue return the updated queue inside the updated client. -/
structure QueueClient (T : Type) where
  queue : Queue T
  to_read : Nat

/-- `QueueClient::new_queue(size)`: build the queue and start reading at
sequence `size` (the first valid completed write). -/
def QueueClient.new_queue {T : Type} (dflt : T) (size : Nat) : Option (QueueClient T) :=
  (Queue.new dflt size).map fun q => { queue := q, to_read := q.size }

/-- `QueueClient::catch_up(margin)`: `to_read = next_write_ptr() - size + margin`
(wrapping `usize` arithmetic), with no validation of `margin`. -/
def QueueClient.catch_up {T : Type} (c : QueueClient T) (margin : Nat) : QueueClient T :=
  { c with to_read := (wsub c.queue.next_write_ptr c.queue.size + margin) % USIZE }

/-- `QueueClient::size`. -/
def QueueClient.size {T : Type} (c : QueueClient T) : Nat := c.queue.size

/-- `QueueClient::push`: delegates to the ring. -/
def QueueClient.push {T : Type} (c : QueueClient T) (data : T) : Option (QueueClient T) :=
  (c.queue.push data).map fun q => { c with queue := q }

/-- The `while margin < size` loop of `QueueClient::next`.  `margin` starts
at 1 and doubles after each `catch_up`, so the loop runs at most
`log2 size + 1 ≤ size` times; the `fuel` argument (instantiated with `size`)
only makes the recursion structural and never cuts the loop short. -/
def QueueClient.nextLoop {T : Type} : QueueClient T → Nat → Nat → Option T × QueueClient T
  | c, 0, _ => (none, c)
  | c, fuel + 1, margin =>
    if margin < c.queue.size then
      match c.queue.read c.to_read with
      | .ok data => (some data, { c with to_read := (c.to_read + 1) % USIZE })
      | .error epoch =>
        if epoch &&& unot SENTINEL_MASK ≤ c.queue.epoch c.to_read
            ∨ 0 < epoch &&& SENTINEL_MASK
        then (none, c)
        else (c.catch_up margin).nextLoop fuel (margin * 2)
    else (none, c)

/-- `QueueClient::next`: run the loop with initial margin 1. -/
def QueueClient.next {T : Type} (c : QueueClient T) : Option T × QueueClient T :=
  c.nextLoop c.queue.size 1

/-- `QueueClient::next_blocking`: spin on `next()` until `Some`.  In a
sequential execution `next` is a pure function of the client state and, on
every reachable state, returns `None` only without changing the state
(`next` changes `to_read` only via `catch_up`, after which the following
`read` succeeds); the spin therefore either succeeds on its first iteration
or diverges (`none`). -/
def QueueClient.next_blocking {T : Type} (c : QueueClient T) : Option (T × QueueClient T) :=
  match c.next with
  | (some v, c') => some (v, c')
  | (none, _) => none

/-- `QueueClient::latest`: delegates to `Queue::read_latest`. -/
def QueueClient.latest {T : Type} (c : QueueClient T) : Option T :=
  c.queue.read_latest

/-- A single-cursor interaction event: a producer push or a consumer
`next()` / `next_blocking()` call. -/
inductive Ev (T : Type) where
  | push (v : T)
  | next
  | nextB
deriving DecidableEq

/-- The values pushed by a list of events, in push order. -/
def pushedVals {T : Type} : List (Ev T) → List T
  | [] => []
  | Ev.push v :: evs => v :: pushedVals evs
  | Ev.next :: evs => pushedVals evs
  | Ev.nextB :: evs => pushedVals evs

/-- Run a list of events against one client, collecting the result of every
`next` / `next_blocking` call (`none` aborts the run: a push whose cell CAS
would spin forever, or a `next_blocking` that would block forever). -/
def runEvs {T : Type} (c : QueueClient T) :
    List (Ev T) → Option (QueueClient T × List (Option T))
  | [] => some (c, [])
  | Ev.push v :: evs =>
    match c.push v with
    | some c1 => runEvs c1 evs
    | none => none
  | Ev.next :: evs =>
    match c.next with
    | (r0, c1) => (runEvs c1 evs).map fun p => (p.1, r0 :: p.2)
  | Ev.nextB :: evs =>
    match c.next_blocking with
    | some (v, c1) => (runEvs c1 evs).map fun p => (p.1, some v :: p.2)
    | none => none

/-- The outputs of a run, discarding the final state. -/
def runOuts {T : Type} (c : QueueClient T) (evs : List (Ev T)) :
    Option (List (Option T)) :=
  (runEvs c evs).map fun p => p.2

/-- The cursor lag `write_ptr - to_read` of a run result (0 for an aborted
run). -/
def lagOf {T : Type} : Option (QueueClient T × List (Option T)) → Nat
  | some (c, _) => c.queue.write_ptr - c.to_read
  | none => 0

/-- An event of the two-cursor test `single_threaded_multi_client`: a push
through either client (both target the shared ring), a `next_blocking` on
cursor 1 or 2, or an `assert_eq!(next(), None)` on cursor 1 or 2. -/
inductive Ev2 where
  | push (v : Nat)
  | read1
  | read2
  | none1
  | none2
deriving DecidableEq

/-- The shared ring together with the two cursors' read positions. -/
structure Pair where
  q : Queue Nat
  t1 : Nat
  t2 : Nat

/-- One step of the two-cursor test.  `read1`/`read2` require
`next_blocking` to return a value; `none1`/`none2` require `next()` to
return `None` (the `assert_eq!` in the test); either failure aborts. -/
def step2 (s : Pair) : Ev2 → Option Pair
  | Ev2.push v => (s.q.push v).map fun q' => { s with q := q' }
  | Ev2.read1 =>
    (QueueClient.next_blocking ⟨s.q, s.t1⟩).map fun p => { s with t1 := p.2.to_read }
  | Ev2.read2 =>
    (QueueClient.next_blocking ⟨s.q, s.t2⟩).map fun p => { s with t2 := p.2.to_read }
  | Ev2.none1 =>
    match QueueClient.next ⟨s.q, s.t1⟩ with
    | (none, c') => some { s with t1 := c'.to_read }
    | (some _, _) => none
  | Ev2.none2 =>
    match QueueClient.next ⟨s.q, s.t2⟩ with
    | (none, c') => some { s with t2 := c'.to_read }
    | (some _, _) => none

/-- Run a list of two-cursor events. -/
def run2 (s : Pair) (evs : List Ev2) : Option Pair :=
  evs.foldlM step2 s

/-- The exact operation history of the test `single_threaded_multi_client`
up to its final two assertions: 62 pushes (values 1..=62) interleaved with
62 consumed reads on each cursor and four `next() = None` checks, then 500
more pushes (values 63..=562). -/
def multiClientEvents : List Ev2 :=
  (List.range' 1 20).map Ev2.push ++ List.replicate 20 Ev2.read1
    ++ List.replicate 20 Ev2.read2
    ++ (List.range' 21 20).map Ev2.push ++ List.replicate 20 Ev2.read2
    ++ (List.range' 41 20).map Ev2.push ++ List.replicate 20 Ev2.read1
    ++ List.replicate 20 Ev2.read2 ++ List.replicate 20 Ev2.read1
    ++ [Ev2.none1, Ev2.push 61, Ev2.read1, Ev2.read2, Ev2.none2, Ev2.push 62,
        Ev2.read2, Ev2.read1, Ev2.none2, Ev2.none1]
    ++ (List.range' 63 500).map Ev2.push

/-! ### Closed form of the sequential queue state

After `k` sequential pushes on a fresh ring of capacity `C = 2^c`, slot `i`
holds the value of the last push whose reserved sequence is congruent to `i`
modulo `C`, at epoch `C + C * ((k - 1 - i) / C)`; untouched slots keep the
default payload and epoch 0. -/

theorem and_high {x c : Nat} (hx : x < USIZE) (hc : c ≤ 64) :
    x &&& (USIZE - 2 ^ c) = x / 2 ^ c * 2 ^ c := by
  have hM : USIZE - 2 ^ c = (2 ^ (64 - c) - 1) <<< c := by
    rw [Nat.shiftLeft_eq, Nat.sub_mul, one_mul, ← pow_add]
    have : 64 - c + c = 64 := by omega
    rw [this]
    rfl
  have hR : x / 2 ^ c * 2 ^ c = (x >>> c) <<< c := by
    rw [Nat.shiftLeft_eq, Nat.shiftRight_eq_div_pow]
  rw [hM, hR]
  apply Nat.eq_of_testBit_eq
  intro i
  rw [Nat.testBit_and, Nat.testBit_shiftLeft, Nat.testBit_shiftLeft,
    Nat.testBit_shiftRight, Nat.testBit_two_pow_sub_one]
  by_cases hci : c ≤ i
  · have h1 : c + (i - c) = i := by omega
    rw [h1]
    by_cases hi64 : i < 64
    · have h2 : i - c < 64 - c := by omega
      simp [ge_iff_le, hci, h2]
    · have hxi : x.testBit i = false := by
        apply Nat.testBit_lt_two_pow
        calc x < USIZE := hx
          _ ≤ 2 ^ i := Nat.pow_le_pow_right (by omega) (by omega)
      have h2 : ¬ (i - c < 64 - c) := by omega
      simp [ge_iff_le, hci, h2, hxi]
  · simp [ge_iff_le, hci]

theorem modu_pow {T : Type} (q : Queue T) (c : Nat) (hm : q.idx_mask = 2 ^ c - 1)
    (x : Nat) : q.modu x = x % 2 ^ c := by
  rw [Queue.modu, hm, Nat.and_pow_two_sub_one_eq_mod]

theorem epoch_pow {T : Type} (q : Queue T) (c : Nat) (hm : q.idx_mask = 2 ^ c - 1)
    (hc : c ≤ 64) (x : Nat) (hx : x < USIZE) : q.epoch x = x - x % 2 ^ c := by
  have h1 : unot (2 ^ c - 1) = USIZE - 2 ^ c := by
    have : (1:Nat) ≤ 2 ^ c := Nat.one_le_two_pow
    have hcU : (2:Nat) ^ c ≤ USIZE := Nat.pow_le_pow_right (by omega) (by omega)
    rw [unot]
    omega
  rw [Queue.epoch, hm, h1, and_high hx hc]
  have h2 := Nat.div_add_mod x (2 ^ c)
  rw [Nat.mul_comm] at h2
  omega

theorem size_pow {T : Type} (q : Queue T) (c : Nat) (hm : q.idx_mask = 2 ^ c - 1)
    (hc : c ≤ 63) : q.size = 2 ^ c := by
  have h1 : (2:Nat) ^ c ≤ 2 ^ 63 := Nat.pow_le_pow_right (by omega) hc
  have h2 : (2:Nat) ^ 63 < USIZE := by decide
  rw [Queue.size, hm, Nat.sub_add_cancel Nat.one_le_two_pow,
    Nat.mod_eq_of_lt (by omega)]


/-- The slot contents after the pushes `vs` on a fresh ring of capacity `C`:
slot `i` holds the value of the last push whose reserved sequence is
congruent to `i` modulo `C`, at epoch `C + C * ((vs.length - 1 - i) / C)`;
untouched slots keep the default payload and epoch 0. -/
def slotModel {T : Type} (dflt : T) (C : Nat) (vs : List T) (i : Nat) : Cell T :=
  if i < C ∧ i < vs.length then
    { data := vs.getD (i + C * ((vs.length - 1 - i) / C)) dflt,
      epoch := C + C * ((vs.length - 1 - i) / C) }
  else { data := dflt, epoch := 0 }

/-- The queue state after the pushes `vs` on a fresh ring of capacity `2^c`. -/
def queueModel {T : Type} (dflt : T) (c : Nat) (vs : List T) : Queue T :=
  { data := slotModel dflt (2 ^ c) vs,
    write_ptr := 2 ^ c + vs.length,
    idx_mask := 2 ^ c - 1 }

/-- Sequential pushes in order. -/
def pushAll {T : Type} (q : Queue T) (vs : List T) : Option (Queue T) :=
  vs.foldlM Queue.push q

theorem queueModel_data {T : Type} (dflt : T) (c : Nat) (vs : List T) :
    (queueModel dflt c vs).data = slotModel dflt (2 ^ c) vs := rfl

theorem queueModel_wp {T : Type} (dflt : T) (c : Nat) (vs : List T) :
    (queueModel dflt c vs).write_ptr = 2 ^ c + vs.length := rfl

theorem queueModel_mask {T : Type} (dflt : T) (c : Nat) (vs : List T) :
    (queueModel dflt c vs).idx_mask = 2 ^ c - 1 := rfl

theorem queueModel_size {T : Type} (dflt : T) (c : Nat) (vs : List T)
    (hc : c ≤ 63) : (queueModel dflt c vs).size = 2 ^ c :=
  size_pow _ c rfl hc

/-- The epoch of the slot about to be written by push number `k = vs.length`
(the slot at index `k % C`) is exactly `k - k % C`, the epoch expected by the
claiming CAS of that push. -/
theorem slotModel_epoch_frontier {T : Type} (dflt : T) (C : Nat) (hC : 0 < C)
    (vs : List T) :
    (slotModel dflt C vs (vs.length % C)).epoch = vs.length - vs.length % C := by
  by_cases hCk : C ≤ vs.length
  · have hiC : vs.length % C < C := Nat.mod_lt _ hC
    have hik : vs.length % C < vs.length := lt_of_lt_of_le hiC hCk
    have hdm := Nat.div_add_mod vs.length C
    have hQ1 : 1 ≤ vs.length / C := (Nat.one_le_div_iff hC).mpr hCk
    have hCQ : C * (vs.length / C) = C * (vs.length / C - 1) + C := by
      conv_lhs => rw [show vs.length / C = (vs.length / C - 1) + 1 by omega]
      rw [Nat.mul_succ]
    have h1 : vs.length - 1 - vs.length % C = C * (vs.length / C - 1) + (C - 1) := by
      omega
    rw [slotModel, if_pos ⟨hiC, hik⟩]
    show C + C * ((vs.length - 1 - vs.length % C) / C) = _
    rw [h1, Nat.mul_add_div hC, Nat.div_eq_of_lt (show C - 1 < C by omega), Nat.add_zero]
    omega
  · have hik : vs.length % C = vs.length := Nat.mod_eq_of_lt (by omega)
    rw [slotModel, if_neg (by omega)]
    show 0 = _
    omega

/-- Writing the frontier slot turns the model of `vs` into the model of
`vs ++ [v]`. -/
theorem setSlot_model {T : Type} (dflt : T) (C : Nat) (hC : 0 < C) (vs : List T)
    (v : T) :
    setSlot (slotModel dflt C vs) (vs.length % C)
      { data := v, epoch := C + vs.length - vs.length % C }
      = slotModel dflt C (vs ++ [v]) := by
  funext i
  rw [setSlot]
  by_cases hii : i = vs.length % C
  · subst hii
    have hmC : vs.length % C < C := Nat.mod_lt _ hC
    have hdm := Nat.div_add_mod vs.length C
    have hlen : (vs ++ [v]).length = vs.length + 1 := by simp
    rw [if_pos rfl, slotModel, if_pos (by omega)]
    have h1 : (vs ++ [v]).length - 1 - vs.length % C = C * (vs.length / C) := by
      rw [hlen]; omega
    have h2 : C * (vs.length / C) / C = vs.length / C := Nat.mul_div_cancel_left _ hC
    have h3 : vs.length % C + C * (vs.length / C) = vs.length := by omega
    have hget : (vs ++ [v]).getD vs.length dflt = v := by
      rw [List.getD_eq_getElem?_getD, List.getElem?_append_right (le_refl _),
        Nat.sub_self]
      rfl
    rw [h1, h2, h3, hget]
    have h4 : C + C * (vs.length / C) = C + vs.length - vs.length % C := by omega
    rw [h4]
  · rw [if_neg hii, slotModel, slotModel]
    by_cases hiC : i < C
    · by_cases hik : i < vs.length
      · have hik1 : i < (vs ++ [v]).length := by simp; omega
        rw [if_pos ⟨hiC, hik⟩, if_pos ⟨hiC, hik1⟩]
        have hlen : (vs ++ [v]).length = vs.length + 1 := by simp
        have hndvd : ¬ C ∣ (vs.length - i) := by
          rintro ⟨t, ht⟩
          have hli : vs.length = i + C * t := by omega
          apply hii
          rw [hli, Nat.add_mul_mod_self_left, Nat.mod_eq_of_lt hiC]
        have hnd : ¬ C ∣ (vs.length - 1 - i + 1) := by
          rw [show vs.length - 1 - i + 1 = vs.length - i by omega]
          exact hndvd
        have hsub : (vs ++ [v]).length - 1 - i = (vs.length - 1 - i) + 1 := by
          rw [hlen]; omega
        have hdiv : ((vs.length - 1 - i) + 1) / C = (vs.length - 1 - i) / C := by
          rw [Nat.succ_div, if_neg hnd, Nat.add_zero]
        rw [hsub, hdiv]
        have h5 : C * ((vs.length - 1 - i) / C) ≤ vs.length - 1 - i := by
          rw [Nat.mul_comm]
          exact Nat.div_mul_le_self _ _
        have hjlt : i + C * ((vs.length - 1 - i) / C) < vs.length := by omega
        have hget : (vs ++ [v]).getD (i + C * ((vs.length - 1 - i) / C)) dflt
            = vs.getD (i + C * ((vs.length - 1 - i) / C)) dflt := by
          rw [List.getD_eq_getElem?_getD, List.getD_eq_getElem?_getD,
            List.getElem?_append_left hjlt]
        rw [hget]
      · have hcond : ¬ (i < C ∧ i < (vs ++ [v]).length) := by
          rintro ⟨-, h2⟩
          rw [List.length_append, List.length_singleton] at h2
          have hieq : i = vs.length := by omega
          apply hii
          rw [hieq, Nat.mod_eq_of_lt (by omega)]
        rw [if_neg hcond, if_neg (by omega)]
    · rw [if_neg (fun h => hiC h.1), if_neg (fun h => hiC h.1)]

/-- One sequential push on the model state: the cell CAS succeeds and the
state advances to the model of `vs ++ [v]`. -/
theorem push_model_step {T : Type} (dflt : T) (c : Nat) (hc : c ≤ 63) (vs : List T)
    (v : T) (hbound : 2 ^ c + vs.length + 1 < USIZE) :
    (queueModel dflt c vs).push v = some (queueModel dflt c (vs ++ [v])) := by
  have hC : 0 < 2 ^ c := Nat.two_pow_pos c
  have hmk : vs.length % 2 ^ c ≤ vs.length := Nat.mod_le _ _
  have hmodu : (queueModel dflt c vs).modu (2 ^ c + vs.length) = vs.length % 2 ^ c := by
    rw [modu_pow _ c rfl, Nat.add_mod_left]
  have hepoch : (queueModel dflt c vs).epoch (2 ^ c + vs.length)
      = 2 ^ c + vs.length - vs.length % 2 ^ c := by
    rw [epoch_pow _ c rfl (by omega) _ (by omega), Nat.add_mod_left]
  have hwrite : (slotModel dflt (2 ^ c) vs (vs.length % 2 ^ c)).write v
      (2 ^ c + vs.length - vs.length % 2 ^ c) (2 ^ c)
      = some { data := v, epoch := 2 ^ c + vs.length - vs.length % 2 ^ c } := by
    have hws : wsub (2 ^ c + vs.length - vs.length % 2 ^ c) (2 ^ c)
        = vs.length - vs.length % 2 ^ c := by
      rw [wsub_eq (by omega) (by omega)]
      omega
    simp only [Cell.write, hws, slotModel_epoch_frontier dflt (2 ^ c) hC vs, if_pos]
  have hwp : (2 ^ c + vs.length + 1) % USIZE = 2 ^ c + (vs ++ [v]).length := by
    rw [Nat.mod_eq_of_lt (by omega), List.length_append, List.length_singleton]
    omega
  simp only [Queue.push, queueModel_wp, queueModel_data, queueModel_size dflt c vs hc,
    hmodu, hepoch, hwrite]
  rw [queueModel, queueModel]
  simp only [Queue.mk.injEq, Option.some.injEq]
  refine ⟨?_, ?_, trivial⟩
  · show setSlot (slotModel dflt (2 ^ c) vs) (vs.length % 2 ^ c) _ = _
    exact setSlot_model dflt (2 ^ c) hC vs v
  · exact hwp

/-- Sequential pushes from a fresh ring never make a cell CAS spin, and they
produce exactly the model state. -/
theorem pushAll_model {T : Type} (dflt : T) (c : Nat) (hc : c ≤ 63) (vs : List T)
    (hbound : 2 ^ c + vs.length < USIZE) :
    pushAll (queueModel dflt c []) vs = some (queueModel dflt c vs) := by
  induction vs using List.reverseRecOn with
  | nil => rfl
  | append_singleton ys y ih =>
    have hlen : (ys ++ [y]).length = ys.length + 1 := by simp
    have hb2 : 2 ^ c + ys.length + 1 < USIZE := by rw [hlen] at hbound; omega
    have ih2 : ys.foldlM Queue.push (queueModel dflt c []) = some (queueModel dflt c ys) :=
      ih (by omega)
    show (ys ++ [y]).foldlM Queue.push (queueModel dflt c []) = _
    rw [List.foldlM_append, ih2]
    show (queueModel dflt c ys).push y >>= _ = _
    rw [push_model_step dflt c hc ys y hb2]
    rfl

/-- Reading a sequence in the live window (at most `capacity - 1` behind the
frontier) succeeds with the pushed value: sequence `2^c + r` is the
reservation of push number `r`. -/
theorem read_model_ok {T : Type} (dflt : T) (c : Nat) (hc : c ≤ 63) (vs : List T)
    (r : Nat) (hbound : 2 ^ c + vs.length < USIZE) (hr : r < vs.length)
    (hlag : vs.length - r ≤ 2 ^ c - 1) :
    (queueModel dflt c vs).read (2 ^ c + r) = .ok (vs.getD r dflt) := by
  have hC : 0 < 2 ^ c := Nat.two_pow_pos c
  have hmr : r % 2 ^ c ≤ r := Nat.mod_le _ _
  have hrC : r % 2 ^ c < 2 ^ c := Nat.mod_lt _ hC
  have hdmr := Nat.div_add_mod r (2 ^ c)
  have hmodu : (queueModel dflt c vs).modu (2 ^ c + r) = r % 2 ^ c := by
    rw [modu_pow _ c rfl, Nat.add_mod_left]
  have hepoch : (queueModel dflt c vs).epoch (2 ^ c + r) = 2 ^ c + r - r % 2 ^ c := by
    rw [epoch_pow _ c rfl (by omega) _ (by omega), Nat.add_mod_left]
  have hmul : r / 2 ^ c * 2 ^ c = r - r % 2 ^ c := by
    rw [Nat.mul_comm]; omega
  have hcell : slotModel dflt (2 ^ c) vs (r % 2 ^ c)
      = { data := vs.getD r dflt, epoch := 2 ^ c + r - r % 2 ^ c } := by
    rw [slotModel, if_pos ⟨hrC, by omega⟩]
    have hdiveq : (vs.length - 1 - r % 2 ^ c) / 2 ^ c = r / 2 ^ c := by
      apply Nat.div_eq_of_lt_le
      · rw [hmul]; omega
      · rw [Nat.succ_mul, hmul]; omega
    rw [hdiveq]
    have hidx : r % 2 ^ c + 2 ^ c * (r / 2 ^ c) = r := by omega
    have hep : 2 ^ c + 2 ^ c * (r / 2 ^ c) = 2 ^ c + r - r % 2 ^ c := by omega
    rw [hidx, hep]
  simp only [Queue.read, queueModel_data, hmodu, hepoch, hcell, Cell.read]
  simp

/-- Reading the frontier sequence `write_ptr = 2^c + vs.length` fails, and
the observed epoch word is strictly below the expected epoch (read-ahead,
not overrun). -/
theorem read_model_frontier {T : Type} (dflt : T) (c : Nat) (hc : c ≤ 63)
    (vs : List T) (hbound : 2 ^ c + vs.length < USIZE) :
    (queueModel dflt c vs).read (2 ^ c + vs.length)
      = .error (vs.length - vs.length % 2 ^ c) ∧
    vs.length - vs.length % 2 ^ c < (queueModel dflt c vs).epoch (2 ^ c + vs.length) := by
  have hC : 0 < 2 ^ c := Nat.two_pow_pos c
  have hmk : vs.length % 2 ^ c ≤ vs.length := Nat.mod_le _ _
  have hmodu : (queueModel dflt c vs).modu (2 ^ c + vs.length) = vs.length % 2 ^ c := by
    rw [modu_pow _ c rfl, Nat.add_mod_left]
  have hepoch : (queueModel dflt c vs).epoch (2 ^ c + vs.length)
      = 2 ^ c + vs.length - vs.length % 2 ^ c := by
    rw [epoch_pow _ c rfl (by omega) _ (by omega), Nat.add_mod_left]
  have hlt : vs.length - vs.length % 2 ^ c
      < 2 ^ c + vs.length - vs.length % 2 ^ c := by omega
  constructor
  · simp only [Queue.read, queueModel_data, hmodu, hepoch,
      slotModel_epoch_frontier dflt (2 ^ c) hC vs]
    rw [if_pos (by omega)]
  · rw [hepoch]
    exact hlt

/-- One unfolding of the `next` loop, with the client's fields exposed. -/
theorem nextLoop_succ {T : Type} (q : Queue T) (t fuel margin : Nat) :
    QueueClient.nextLoop ⟨q, t⟩ (fuel + 1) margin =
      if margin < q.size then
        match q.read t with
        | .ok data => (some data, ⟨q, (t + 1) % USIZE⟩)
        | .error epoch =>
          if epoch &&& unot SENTINEL_MASK ≤ q.epoch t ∨ 0 < epoch &&& SENTINEL_MASK
          then (none, ⟨q, t⟩)
          else QueueClient.nextLoop ⟨q, (wsub q.next_write_ptr q.size + margin) % USIZE⟩
            fuel (margin * 2)
      else (none, ⟨q, t⟩) := rfl

/-- On the model state, a `next` loop iteration at an unread in-window
sequence returns the pushed value and advances the cursor. -/
theorem nextLoop_model_ok {T : Type} (dflt : T) (c : Nat) (hc : c ≤ 63)
    (vs : List T) (r : Nat) (hbound : 2 ^ c + vs.length < USIZE)
    (hr : r < vs.length) (hlag : vs.length - r ≤ 2 ^ c - 1)
    (fuel margin : Nat) (hf : 0 < fuel) (hms : margin < 2 ^ c) :
    QueueClient.nextLoop ⟨queueModel dflt c vs, 2 ^ c + r⟩ fuel margin
      = (some (vs.getD r dflt), ⟨queueModel dflt c vs, 2 ^ c + r + 1⟩) := by
  obtain ⟨f, rfl⟩ : ∃ f, fuel = f + 1 := ⟨fuel - 1, by omega⟩
  rw [nextLoop_succ, queueModel_size dflt c vs hc, if_pos hms,
    read_model_ok dflt c hc vs r hbound hr hlag,
    Nat.mod_eq_of_lt (show 2 ^ c + r + 1 < USIZE by omega)]

/-- On the model state, a `next` loop iteration at the frontier returns
`none` and leaves the cursor unchanged (for every fuel and margin). -/
theorem nextLoop_model_none {T : Type} (dflt : T) (c : Nat) (hc : c ≤ 63)
    (vs : List T) (hbound : 2 ^ c + vs.length < USIZE) (fuel margin : Nat) :
    QueueClient.nextLoop ⟨queueModel dflt c vs, 2 ^ c + vs.length⟩ fuel margin
      = (none, ⟨queueModel dflt c vs, 2 ^ c + vs.length⟩) := by
  cases fuel with
  | zero => rfl
  | succ f =>
    rw [nextLoop_succ]
    by_cases hm : margin < (queueModel dflt c vs).size
    · rw [if_pos hm, (read_model_frontier dflt c hc vs hbound).1]
      exact if_pos (Or.inl (le_trans Nat.and_le_left
        (le_of_lt (read_model_frontier dflt c hc vs hbound).2)))
    · rw [if_neg hm]

/-- `next()` on the model state with unread data: returns push number `r`'s
value and advances `to_read`. -/
theorem next_model_ok {T : Type} (dflt : T) (c : Nat) (hc : c ≤ 63) (vs : List T)
    (r : Nat) (hbound : 2 ^ c + vs.length < USIZE) (hr : r < vs.length)
    (hlag : vs.length - r ≤ 2 ^ c - 1) :
    QueueClient.next ⟨queueModel dflt c vs, 2 ^ c + r⟩
      = (some (vs.getD r dflt), ⟨queueModel dflt c vs, 2 ^ c + r + 1⟩) := by
  have hC : 0 < 2 ^ c := Nat.two_pow_pos c
  have hC2 : 2 ≤ 2 ^ c := by omega
  show QueueClient.nextLoop ⟨queueModel dflt c vs, 2 ^ c + r⟩
    (queueModel dflt c vs).size 1 = _
  exact nextLoop_model_ok dflt c hc vs r hbound hr hlag _ 1
    (by rw [queueModel_size dflt c vs hc]; omega) (by omega)

/-- `next()` on the model state with the cursor at the frontier: returns
`none` and leaves the client unchanged. -/
theorem next_model_none {T : Type} (dflt : T) (c : Nat) (hc : c ≤ 63) (vs : List T)
    (hbound : 2 ^ c + vs.length < USIZE) :
    QueueClient.next ⟨queueModel dflt c vs, 2 ^ c + vs.length⟩
      = (none, ⟨queueModel dflt c vs, 2 ^ c + vs.length⟩) := by
  show QueueClient.nextLoop ⟨queueModel dflt c vs, 2 ^ c + vs.length⟩
    (queueModel dflt c vs).size 1 = _
  exact nextLoop_model_none dflt c hc vs hbound _ 1

/-- A freshly constructed client (requested capacity `1 ≤ n ≤ 2^63`) is the
model of zero pushes at capacity `2 ^ (n-1).size`, with the cursor at the
capacity. -/
theorem new_queue_model {T : Type} (dflt : T) (n : Nat) (h1 : 1 ≤ n)
    (h2 : n ≤ 2 ^ 63) :
    QueueClient.new_queue dflt n
      = some ⟨queueModel dflt (n - 1).size [], 2 ^ (n - 1).size⟩ := by
  have hsz := round_up_eq n h1 h2
  have hs63 : (n - 1).size ≤ 63 := by
    apply Nat.size_le.mpr
    omega
  have hpow_le : (2:Nat) ^ (n - 1).size ≤ 2 ^ 63 := Nat.pow_le_pow_right (by omega) hs63
  have hU : (2:Nat) ^ 63 < USIZE := by norm_num [USIZE]
  have hmask : wsub (2 ^ (n - 1).size) 1 = 2 ^ (n - 1).size - 1 :=
    wsub_eq Nat.one_le_two_pow (by omega)
  have hq : ({ data := fun _ => { data := dflt, epoch := 0 },
               write_ptr := 2 ^ (n - 1).size,
               idx_mask := wsub (2 ^ (n - 1).size) 1 } : Queue T)
      = queueModel dflt (n - 1).size [] := by
    have hdata : (fun _ : Nat => ({ data := dflt, epoch := 0 } : Cell T))
        = slotModel dflt (2 ^ (n - 1).size) [] := by
      funext i
      rw [slotModel, if_neg (by simp)]
    rw [queueModel, hmask, hdata]
    simp
  simp only [QueueClient.new_queue, Queue.new, if_neg (show ¬ n = 0 by omega), hsz,
    Option.map_some']
  rw [hq, queueModel_size dflt (n - 1).size ([] : List T) hs63]

theorem lagOf_map {T : Type} (x : Option (QueueClient T × List (Option T)))
    (f : List (Option T) → List (Option T)) :
    lagOf (x.map fun p => (p.1, f p.2)) = lagOf x := by
  cases x with
  | none => rfl
  | some p => rfl

/-- Main induction for claim 1: starting from the model of `vs` pushes with
`r` of them consumed, a run whose cursor never lags more than `capacity − 1`
returns, at its successful `next` / `next_blocking` calls, exactly the
unconsumed pushed values in push order. -/
theorem runEvs_model {T : Type} (dflt : T) (c : Nat) (hc : c ≤ 63) :
    ∀ (evs : List (Ev T)) (vs : List T) (r : Nat) (cf : QueueClient T)
      (rs : List (Option T)),
      r ≤ vs.length →
      2 ^ c + vs.length + (pushedVals evs).length < USIZE →
      (∀ j, j ≤ evs.length →
        lagOf (runEvs (⟨queueModel dflt c vs, 2 ^ c + r⟩ : QueueClient T) (evs.take j))
          ≤ 2 ^ c - 1) →
      runEvs (⟨queueModel dflt c vs, 2 ^ c + r⟩ : QueueClient T) evs = some (cf, rs) →
      rs.filterMap id = (vs.drop r ++ pushedVals evs).take (rs.filterMap id).length := by
  intro evs
  induction evs with
  | nil =>
    intro vs r cf rs hr hb hlag hrun
    simp only [runEvs, Option.some.injEq, Prod.mk.injEq] at hrun
    obtain ⟨-, hrs⟩ := hrun
    subst hrs
    simp
  | cons e evs ih =>
    intro vs r cf rs hr hb hlag hrun
    have hcur : vs.length - r ≤ 2 ^ c - 1 := by
      have h0 := hlag 0 (by omega)
      simp only [List.take_zero, runEvs, lagOf, queueModel_wp] at h0
      omega
    cases e with
    | push v =>
      have hb' : 2 ^ c + (vs ++ [v]).length + (pushedVals evs).length < USIZE := by
        simp only [pushedVals, List.length_cons, List.length_append,
          List.length_singleton, List.length_nil] at hb ⊢
        omega
      have hpushstep : (⟨queueModel dflt c vs, 2 ^ c + r⟩ : QueueClient T).push v
          = some ⟨queueModel dflt c (vs ++ [v]), 2 ^ c + r⟩ := by
        show ((queueModel dflt c vs).push v).map _ = _
        rw [push_model_step dflt c hc vs v (by
          simp only [List.length_append, List.length_singleton] at hb'
          omega)]
        rfl
      simp only [runEvs, hpushstep] at hrun
      have hlag' : ∀ j, j ≤ evs.length →
          lagOf (runEvs (⟨queueModel dflt c (vs ++ [v]), 2 ^ c + r⟩ : QueueClient T)
            (evs.take j)) ≤ 2 ^ c - 1 := by
        intro j hj
        have h1 := hlag (j + 1) (by simp only [List.length_cons]; omega)
        rw [List.take_succ_cons] at h1
        simpa only [runEvs, hpushstep] using h1
      have ihres := ih (vs ++ [v]) r cf rs
        (by simp only [List.length_append, List.length_singleton]; omega)
        hb' hlag' hrun
      have hlist : (vs ++ [v]).drop r ++ pushedVals evs
          = vs.drop r ++ pushedVals (Ev.push v :: evs) := by
        rw [List.drop_append_of_le_length hr]
        simp [pushedVals]
      rw [← hlist]
      exact ihres
    | next =>
      have hb' : 2 ^ c + vs.length + (pushedVals evs).length < USIZE := by
        simpa only [pushedVals] using hb
      have hbq : 2 ^ c + vs.length < USIZE := by omega
      by_cases hrv : r < vs.length
      · have hstep := next_model_ok dflt c hc vs r hbq hrv hcur
        simp only [runEvs, hstep] at hrun
        cases hrec : runEvs (⟨queueModel dflt c vs, 2 ^ c + r + 1⟩ : QueueClient T) evs with
        | none => rw [hrec] at hrun; simp at hrun
        | some p =>
          obtain ⟨cf', rs'⟩ := p
          rw [hrec] at hrun
          simp only [Option.map_some', Option.some.injEq, Prod.mk.injEq] at hrun
          obtain ⟨-, hrs⟩ := hrun
          subst hrs
          rw [Nat.add_assoc] at hrec
          have hlag' : ∀ j, j ≤ evs.length →
              lagOf (runEvs (⟨queueModel dflt c vs, 2 ^ c + (r + 1)⟩ : QueueClient T)
                (evs.take j)) ≤ 2 ^ c - 1 := by
            intro j hj
            have h1 := hlag (j + 1) (by simp only [List.length_cons]; omega)
            rw [List.take_succ_cons] at h1
            simp only [runEvs, hstep] at h1
            rw [lagOf_map] at h1
            rwa [Nat.add_assoc] at h1
          have ihres := ih vs (r + 1) cf' rs' (by omega) hb' hlag' hrec
          have hgetd : vs.getD r dflt = vs[r] := by
            rw [List.getD_eq_getElem?_getD, List.getElem?_eq_getElem hrv]
            rfl
          have hdropr : vs.drop r = vs.getD r dflt :: vs.drop (r + 1) := by
            rw [List.drop_eq_getElem_cons hrv, hgetd]
          simp only [pushedVals, List.filterMap_cons, id_eq, List.length_cons]
          rw [hdropr, List.cons_append, List.take_succ_cons]
          exact congrArg (vs.getD r dflt :: ·) ihres
      · have hre : r = vs.length := by omega
        subst hre
        have hstep := next_model_none dflt c hc vs hbq
        simp only [runEvs, hstep] at hrun
        cases hrec : runEvs (⟨queueModel dflt c vs, 2 ^ c + vs.length⟩ : QueueClient T) evs with
        | none => rw [hrec] at hrun; simp at hrun
        | some p =>
          obtain ⟨cf', rs'⟩ := p
          rw [hrec] at hrun
          simp only [Option.map_some', Option.some.injEq, Prod.mk.injEq] at hrun
          obtain ⟨-, hrs⟩ := hrun
          subst hrs
          have hlag' : ∀ j, j ≤ evs.length →
              lagOf (runEvs (⟨queueModel dflt c vs, 2 ^ c + vs.length⟩ : QueueClient T)
                (evs.take j)) ≤ 2 ^ c - 1 := by
            intro j hj
            have h1 := hlag (j + 1) (by simp only [List.length_cons]; omega)
            rw [List.take_succ_cons] at h1
            simp only [runEvs, hstep] at h1
            rwa [lagOf_map] at h1
          have ihres := ih vs vs.length cf' rs' (le_refl _) hb' hlag' hrec
          simpa only [pushedVals, List.filterMap_cons, id_eq] using ihres
    | nextB =>
      have hb' : 2 ^ c + vs.length + (pushedVals evs).length < USIZE := by
        simpa only [pushedVals] using hb
      have hbq : 2 ^ c + vs.length < USIZE := by omega
      by_cases hrv : r < vs.length
      · have hstep := next_model_ok dflt c hc vs r hbq hrv hcur
        have hnb : (⟨queueModel dflt c vs, 2 ^ c + r⟩ : QueueClient T).next_blocking
            = some (vs.getD r dflt, ⟨queueModel dflt c vs, 2 ^ c + r + 1⟩) := by
          rw [QueueClient.next_blocking, hstep]
        simp only [runEvs, hnb] at hrun
        cases hrec : runEvs (⟨queueModel dflt c vs, 2 ^ c + r + 1⟩ : QueueClient T) evs with
        | none => rw [hrec] at hrun; simp at hrun
        | some p =>
          obtain ⟨cf', rs'⟩ := p
          rw [hrec] at hrun
          simp only [Option.map_some', Option.some.injEq, Prod.mk.injEq] at hrun
          obtain ⟨-, hrs⟩ := hrun
          subst hrs
          rw [Nat.add_assoc] at hrec
          have hlag' : ∀ j, j ≤ evs.length →
              lagOf (runEvs (⟨queueModel dflt c vs, 2 ^ c + (r + 1)⟩ : QueueClient T)
                (evs.take j)) ≤ 2 ^ c - 1 := by
            intro j hj
            have h1 := hlag (j + 1) (by simp only [List.length_cons]; omega)
            rw [List.take_succ_cons] at h1
            simp only [runEvs, hnb] at h1
            rw [lagOf_map] at h1
            rwa [Nat.add_assoc] at h1
          have ihres := ih vs (r + 1) cf' rs' (by omega) hb' hlag' hrec
          have hgetd : vs.getD r dflt = vs[r] := by
            rw [List.getD_eq_getElem?_getD, List.getElem?_eq_getElem hrv]
            rfl
          have hdropr : vs.drop r = vs.getD r dflt :: vs.drop (r + 1) := by
            rw [List.drop_eq_getElem_cons hrv, hgetd]
          simp only [pushedVals, List.filterMap_cons, id_eq, List.length_cons]
          rw [hdropr, List.cons_append, List.take_succ_cons]
          exact congrArg (vs.getD r dflt :: ·) ihres
      · have hre : r = vs.length := by omega
        subst hre
        have hstep := next_model_none dflt c hc vs hbq
        have hnb : (⟨queueModel dflt c vs, 2 ^ c + vs.length⟩ : QueueClient T).next_blocking
            = none := by
          rw [QueueClient.next_blocking, hstep]
        simp only [runEvs, hnb] at hrun
        exact absurd hrun (by simp)

/-- C1.  For a single-threaded execution on a fresh client of requested
capacity `n` in which the cursor never lags the producers by more than
`capacity − 1` writes (checked after every prefix of the event trace), the
values returned by the successful `next()` / `next_blocking()` calls are
exactly the pushed values in push order — no gaps, no duplicates. -/
theorem c1_cursor_ordering {T : Type} (dflt : T) (n : Nat) (c0 : QueueClient T)
    (evs : List (Ev T)) (rs : List (Option T))
    (hn : n ≤ 2 ^ 63)
    (hnew : QueueClient.new_queue dflt n = some c0)
    (hbound : c0.size + (pushedVals evs).length < USIZE)
    (hlag : ∀ j, j ≤ evs.length → lagOf (runEvs c0 (evs.take j)) ≤ c0.size - 1)
    (hrun : runOuts c0 evs = some rs) :
    rs.filterMap id = (pushedVals evs).take (rs.filterMap id).length := by
  have hn1 : 1 ≤ n := by
    by_contra h
    rw [show n = 0 by omega] at hnew
    simp [QueueClient.new_queue, Queue.new] at hnew
  have hs63 : (n - 1).size ≤ 63 := by
    apply Nat.size_le.mpr
    omega
  have hmodel := new_queue_model dflt n hn1 hn
  rw [hnew] at hmodel
  simp only [Option.some.injEq] at hmodel
  subst hmodel
  have hsize : (⟨queueModel dflt (n - 1).size [], 2 ^ (n - 1).size⟩ : QueueClient T).size
      = 2 ^ (n - 1).size := queueModel_size dflt _ [] hs63
  rw [hsize] at hbound hlag
  cases hre : runEvs (⟨queueModel dflt (n - 1).size [], 2 ^ (n - 1).size⟩ : QueueClient T) evs with
  | none => rw [runOuts, hre] at hrun; simp at hrun
  | some p =>
    obtain ⟨cf, rs'⟩ := p
    rw [runOuts, hre] at hrun
    simp only [Option.map_some', Option.some.injEq] at hrun
    subst hrun
    have hb2 : 2 ^ (n - 1).size + ([] : List T).length + (pushedVals evs).length
        < USIZE := by
      simpa using hbound
    have hlag2 : ∀ j, j ≤ evs.length →
        lagOf (runEvs (⟨queueModel dflt (n - 1).size [], 2 ^ (n - 1).size + 0⟩ :
          QueueClient T) (evs.take j)) ≤ 2 ^ (n - 1).size - 1 := by
      intro j hj
      rw [Nat.add_zero]
      exact hlag j hj
    have hrun2 : runEvs (⟨queueModel dflt (n - 1).size [], 2 ^ (n - 1).size + 0⟩ :
        QueueClient T) evs = some (cf, rs') := by
      rw [Nat.add_zero]
      exact hre
    have key := runEvs_model dflt (n - 1).size (by omega) evs [] 0 cf rs'
      (by simp) hb2 hlag2 hrun2
    simpa using key

theorem Cell.epoch_mk {T : Type} (d : T) (e : Nat) :
    ({ data := d, epoch := e } : Cell T).epoch = e := rfl

theorem Cell.data_mk {T : Type} (d : T) (e : Nat) :
    ({ data := d, epoch := e } : Cell T).data = d := rfl

/-- Inversion of a successful read at a positive-epoch sequence on the model
state: the sequence was reserved by push number `s - capacity`, and the value
read is exactly that push's value. -/
theorem read_model_inv {T : Type} (dflt : T) (c : Nat) (hc : c ≤ 64) (vs : List T)
    (s : Nat) (v : T) (hs : s < USIZE)
    (hepochnz : (queueModel dflt c vs).epoch s ≠ 0)
    (hread : (queueModel dflt c vs).read s = .ok v) :
    2 ^ c ≤ s ∧ s - 2 ^ c < vs.length ∧ vs.getD (s - 2 ^ c) dflt = v := by
  have hC : 0 < 2 ^ c := Nat.two_pow_pos c
  have hsC : s % 2 ^ c < 2 ^ c := Nat.mod_lt _ hC
  have hms : s % 2 ^ c ≤ s := Nat.mod_le _ _
  have hmodu : (queueModel dflt c vs).modu s = s % 2 ^ c := modu_pow _ c rfl s
  have hepochs : (queueModel dflt c vs).epoch s = s - s % 2 ^ c :=
    epoch_pow _ c rfl hc s hs
  rw [hepochs] at hepochnz
  have hsge : 2 ^ c ≤ s := by
    by_contra hlt
    have : s % 2 ^ c = s := Nat.mod_eq_of_lt (by omega)
    omega
  simp only [Queue.read, queueModel_data, hmodu, hepochs, Cell.read] at hread
  by_cases hcond : s % 2 ^ c < 2 ^ c ∧ s % 2 ^ c < vs.length
  · have hslot : slotModel dflt (2 ^ c) vs (s % 2 ^ c)
        = { data := vs.getD (s % 2 ^ c + 2 ^ c * ((vs.length - 1 - s % 2 ^ c) / 2 ^ c)) dflt,
            epoch := 2 ^ c + 2 ^ c * ((vs.length - 1 - s % 2 ^ c) / 2 ^ c) } := by
      rw [slotModel, if_pos hcond]
    rw [hslot] at hread
    simp only [Cell.epoch_mk, Cell.data_mk] at hread
    by_cases heq2 : 2 ^ c + 2 ^ c * ((vs.length - 1 - s % 2 ^ c) / 2 ^ c) = s - s % 2 ^ c
    · rw [if_neg (by simp [heq2]), if_neg (by simp [heq2])] at hread
      simp only [Except.ok.injEq] at hread
      have h5 : 2 ^ c * ((vs.length - 1 - s % 2 ^ c) / 2 ^ c)
          ≤ vs.length - 1 - s % 2 ^ c := by
        rw [Nat.mul_comm]
        exact Nat.div_mul_le_self _ _
      have hj : s % 2 ^ c + 2 ^ c * ((vs.length - 1 - s % 2 ^ c) / 2 ^ c) = s - 2 ^ c := by
        omega
      refine ⟨hsge, by omega, ?_⟩
      rw [← hj]
      exact hread
    · rw [if_pos heq2] at hread
      exact absurd hread (by simp)
  · have hslot : slotModel dflt (2 ^ c) vs (s % 2 ^ c)
        = { data := dflt, epoch := 0 } := by
      rw [slotModel, if_neg hcond]
    rw [hslot] at hread
    simp only [Cell.epoch_mk, Cell.data_mk] at hread
    rw [if_pos (by omega)] at hread
    exact absurd hread (by simp)

/-- C2 (amended).  On every ring reachable from a fresh ring by sequential
pushes, and for every sequence number `s` of a positive generation (nonzero
expected epoch, i.e. `s ≥ capacity`), `read s = Ok v` implies that push
number `s - capacity` reserved sequence `s` with value `v` — no phantom
data.  (For `s < capacity` the expected epoch is 0, which collides with the
never-written initial state; see the counterexample.) -/
theorem c2_no_phantom_amended {T : Type} (dflt : T) (n : Nat) (vs : List T)
    (q0 q : Queue T) (s : Nat) (v : T)
    (hn : n ≤ 2 ^ 63)
    (hnew : Queue.new dflt n = some q0)
    (hbound : q0.size + vs.length < USIZE)
    (hpush : pushAll q0 vs = some q)
    (hs : s < USIZE)
    (hepochnz : q.epoch s ≠ 0)
    (hread : q.read s = .ok v) :
    q0.size ≤ s ∧ s - q0.size < vs.length ∧ vs.getD (s - q0.size) dflt = v := by
  have hn1 : 1 ≤ n := by
    by_contra h
    rw [show n = 0 by omega] at hnew
    simp [Queue.new] at hnew
  have hs63 : (n - 1).size ≤ 63 := by
    apply Nat.size_le.mpr
    omega
  have hq0 : q0 = queueModel dflt (n - 1).size [] := by
    have h1 := new_queue_model dflt n hn1 hn
    rw [QueueClient.new_queue, hnew] at h1
    simp only [Option.map_some', Option.some.injEq, QueueClient.mk.injEq] at h1
    exact h1.1
  subst hq0
  rw [queueModel_size dflt (n - 1).size ([] : List T) hs63] at hbound ⊢
  have hq : q = queueModel dflt (n - 1).size vs := by
    have h2 := pushAll_model dflt (n - 1).size (by omega) vs (by simpa using hbound)
    rw [hpush] at h2
    simp only [Option.some.injEq] at h2
    exact h2
  subst hq
  exact read_model_inv dflt (n - 1).size (by omega) vs s v hs hepochnz hread

set_option maxRecDepth 4000 in
theorem c1_cursor_ordering_witness :
    [some (5:Nat)].filterMap id
      = (pushedVals [Ev.push (5:Nat), Ev.next]).take
          ([some (5:Nat)].filterMap id).length :=
  c1_cursor_ordering 0 2 ⟨⟨fun _ => ⟨0, 0⟩, 2, 1⟩, 2⟩ [Ev.push 5, Ev.next] [some 5]
    (by decide) rfl (by decide) (by decide) (by decide)

/-- C2 counterexample: on a fresh ring of capacity 1 with no pushes,
`read 0` returns `Ok 37` (the default payload) although no push ever
reserved sequence 0 — the claim quantified over every sequence number is
false on the code. -/
theorem c2_counterexample :
    ¬ (∀ (q0 q : Queue Nat) (vs : List Nat) (s v : Nat),
        Queue.new 37 1 = some q0 → pushAll q0 vs = some q →
        q.read s = .ok v →
        ∃ j, j < vs.length ∧ s = q0.size + j ∧ vs.getD j 37 = v) := by
  intro h
  obtain ⟨j, hj, -, -⟩ :=
    h ⟨fun _ => ⟨37, 0⟩, 1, 0⟩ ⟨fun _ => ⟨37, 0⟩, 1, 0⟩ [] 0 37 rfl rfl rfl
  exact absurd hj (by simp)

set_option maxRecDepth 4000 in
theorem c2_no_phantom_amended_witness :
    (1:Nat) ≤ 1 ∧ (1:Nat) - 1 < ([7] : List Nat).length
      ∧ ([7] : List Nat).getD (1 - 1) 0 = 7 :=
  c2_no_phantom_amended 0 1 [7] ⟨fun _ => ⟨0, 0⟩, 1, 0⟩
    ⟨setSlot (fun _ => ⟨0, 0⟩) 0 ⟨7, 1⟩, 2, 0⟩ 1 7
    (by decide) rfl (by decide) rfl (by decide) (by decide) rfl

/-- C3: evaluating the code at the failing input.  On a freshly constructed
ring (requested capacity 1, default payload 99) with no writes,
`try_read_latest()` returns `Some 99` — the never-written slot at index
`capacity - 1` has epoch word 0, which equals the expected epoch of
sequence `capacity - 1` — contradicting the claim (and the function's own
documentation) that it fails when nothing has been written.  After one
`push 5` it returns `Some 5` as claimed. -/
theorem c3_fresh_try_read_latest :
    (Queue.new (99 : Nat) 1).map Queue.try_read_latest = some (some 99) ∧
    ((Queue.new (99 : Nat) 1).bind fun q => q.push 5).map Queue.try_read_latest
      = some (some 5) := by decide

set_option maxRecDepth 8000 in
/-- C4: the exact two-cursor history of the source test
`single_threaded_multi_client` on a ring of requested capacity 100 (actual
128): after 62 consumed pushes and 500 further pushes, the lagging cursor's
first `next()` returns value `436 = 62 + 500 - 127 + 1` (the value at
sequence `write_ptr - capacity + 1`), and `latest()` returns the last
pushed value 562. -/
theorem c4_overrun_scenario :
    ((QueueClient.new_queue (0 : Nat) 100).bind fun c0 =>
      (run2 ⟨c0.queue, c0.to_read, c0.to_read⟩ multiClientEvents).map fun s =>
        ((QueueClient.next ⟨s.q, s.t2⟩).1, Queue.read_latest s.q)) =
    some (some 436, some 562) := by decide

/-- C5 (amended).  For `1 ≤ n ≤ 2^63` the constructed capacity
`round_up_to_power_of_two n` is the smallest power of two `≥ n`.  (For
`n > 2^63` the increment wraps: see the counterexample.) -/
theorem c5_round_up (n : Nat) (h1 : 1 ≤ n) (h2 : n ≤ 2 ^ 63) :
    (∃ k, round_up_to_power_of_two n = 2 ^ k) ∧
    n ≤ round_up_to_power_of_two n ∧
    ∀ k, n ≤ 2 ^ k → round_up_to_power_of_two n ≤ 2 ^ k := by
  rw [round_up_eq n h1 h2]
  refine ⟨⟨(n - 1).size, rfl⟩, ?_, ?_⟩
  · have := Nat.lt_size_self (n - 1)
    omega
  · intro k hk
    apply Nat.pow_le_pow_right (by omega)
    apply Nat.size_le.mpr
    omega

/-- C5 counterexample: for the machine-word input `2^63 + 1` the rounding
wraps to 0, which is not a power of two `≥ n`. -/
theorem c5_counterexample :
    round_up_to_power_of_two (2 ^ 63 + 1) = 0 ∧
    ¬ (2 ^ 63 + 1 ≤ round_up_to_power_of_two (2 ^ 63 + 1)) := by decide

theorem c5_round_up_witness :
    5 ≤ round_up_to_power_of_two 5 ∧ round_up_to_power_of_two 5 ≤ 2 ^ 3 :=
  ⟨(c5_round_up 5 (by decide) (by decide)).2.1,
   (c5_round_up 5 (by decide) (by decide)).2.2 3 (by decide)⟩

/-- The operations of the public interface (claim C6). -/
inductive Op (T : Type) where
  | push (v : T)
  | read (idx : Nat)
  | tryReadLatest
  | readLatest
  | next
  | nextB
  | catchUp (margin : Nat)
  | latest

/-- Execute one public operation sequentially on a client, discarding any
returned value; `none` models a panic or divergence.  `read` and
`tryReadLatest` perform only loads and leave the state unchanged. -/
def applyOp {T : Type} (c : QueueClient T) : Op T → Option (QueueClient T)
  | Op.push v => c.push v
  | Op.read _ => some c
  | Op.tryReadLatest => some c
  | Op.readLatest => (c.queue.read_latest).map fun _ => c
  | Op.next => some (c.next).2
  | Op.nextB => (c.next_blocking).map fun p => p.2
  | Op.catchUp m => some (c.catch_up m)
  | Op.latest => (c.latest).map fun _ => c

/-- The `next` loop never modifies the shared ring, only the cursor. -/
theorem nextLoop_queue {T : Type} (fuel : Nat) :
    ∀ (margin : Nat) (c : QueueClient T),
      ((c.nextLoop fuel margin).2).queue = c.queue := by
  induction fuel with
  | zero => intro margin c; rfl
  | succ f ih =>
    intro margin c
    obtain ⟨q, t⟩ := c
    rw [nextLoop_succ]
    by_cases h1 : margin < q.size
    · rw [if_pos h1]
      cases hr : q.read t with
      | ok d => rfl
      | error e =>
        simp only [hr]
        by_cases h2 : e &&& unot SENTINEL_MASK ≤ q.epoch t ∨ 0 < e &&& SENTINEL_MASK
        · rw [if_pos h2]
        · rw [if_neg h2]
          exact ih (margin * 2) _
    · rw [if_neg h1]

theorem masked_eq_mod (x : Nat) : x &&& unot SENTINEL_MASK = x % 2 ^ 63 := by
  have h : unot SENTINEL_MASK = 2 ^ 63 - 1 := by decide
  rw [h, Nat.and_pow_two_sub_one_eq_mod]

/-- C6.  Within the documented lifetime limit (write pointer below `2^63`),
every operation of the public interface leaves every slot's sentinel-masked
epoch word (its lower bits) no smaller than it was before the operation. -/
theorem c6_epoch_monotonic {T : Type} (c0 : QueueClient T) (op : Op T)
    (c1 : QueueClient T) (e : Nat)
    (hpow : c0.queue.idx_mask = 2 ^ e - 1)
    (hwp : c0.queue.size ≤ c0.queue.write_ptr)
    (hlife : c0.queue.write_ptr < 2 ^ 63)
    (happ : applyOp c0 op = some c1) :
    ∀ i, (c0.queue.data i).epoch &&& unot SENTINEL_MASK
      ≤ (c1.queue.data i).epoch &&& unot SENTINEL_MASK := by
  intro i
  have hU : (2:Nat) ^ 63 < USIZE := by decide
  cases op with
  | push v =>
    simp only [applyOp, QueueClient.push] at happ
    by_cases hcas : (c0.queue.data (c0.queue.modu c0.queue.write_ptr)).epoch
        = wsub (c0.queue.epoch c0.queue.write_ptr) c0.queue.size
    · simp only [Queue.push, Cell.write, if_pos hcas, Option.map_some',
        Option.some.injEq] at happ
      subst happ
      dsimp only
      by_cases hio : i = c0.queue.modu c0.queue.write_ptr
      · subst hio
        simp only [setSlot, if_true]
        rw [Cell.epoch_mk, hcas]
        by_cases he64 : e ≤ 63
        · have hsz : c0.queue.size = 2 ^ e := size_pow _ e hpow he64
          have hC : 0 < 2 ^ e := Nat.two_pow_pos e
          have he63 : (2:Nat) ^ e ≤ c0.queue.write_ptr := by rw [hsz] at hwp; exact hwp
          have hwpU : c0.queue.write_ptr < USIZE := by omega
          have hE : c0.queue.epoch c0.queue.write_ptr
              = c0.queue.write_ptr - c0.queue.write_ptr % 2 ^ e :=
            epoch_pow _ e hpow (by omega) _ hwpU
          have hdm := Nat.div_add_mod c0.queue.write_ptr (2 ^ e)
          have hq1 : 1 ≤ c0.queue.write_ptr / 2 ^ e :=
            (Nat.one_le_div_iff hC).mpr he63
          have hmul : 2 ^ e * 1 ≤ 2 ^ e * (c0.queue.write_ptr / 2 ^ e) :=
            Nat.mul_le_mul_left _ hq1
          have hEC : 2 ^ e ≤ c0.queue.epoch c0.queue.write_ptr := by
            rw [hE]; omega
          have hElt : c0.queue.epoch c0.queue.write_ptr < 2 ^ 63 := by
            rw [hE]; omega
          rw [hsz, wsub_eq hEC (by omega), masked_eq_mod, masked_eq_mod,
            Nat.mod_eq_of_lt (by omega), Nat.mod_eq_of_lt hElt]
          omega
        · -- degenerate mask (`e ≥ 64`, only possible for a hand-built state):
          -- epoch component and capacity are both 0, so the CAS expectation
          -- equals the published epoch and nothing decreases
          have hUe : USIZE ≤ 2 ^ e := by
            calc USIZE = 2 ^ 64 := rfl
              _ ≤ 2 ^ e := Nat.pow_le_pow_right (by omega) (by omega)
          have h1 : (1:Nat) ≤ 2 ^ e := Nat.one_le_two_pow
          have hu0 : unot c0.queue.idx_mask = 0 := by
            rw [hpow, unot]
            omega
          have hE0 : c0.queue.epoch c0.queue.write_ptr = 0 := by
            rw [Queue.epoch, hu0, Nat.and_zero]
          have hsz0 : c0.queue.size = 0 := by
            rw [Queue.size, hpow, Nat.sub_add_cancel Nat.one_le_two_pow]
            obtain ⟨t, ht⟩ : USIZE ∣ 2 ^ e := pow_dvd_pow 2 (by omega)
            rw [ht, Nat.mul_mod_right]
          have hws : wsub 0 0 = 0 := by decide
          rw [hE0, hsz0, hws]
      · simp only [setSlot, if_neg hio]
        exact le_refl _
    · simp only [Queue.push, Cell.write, if_neg hcas] at happ
      exact absurd happ (by simp)
  | read idx =>
    simp only [applyOp, Option.some.injEq] at happ
    subst happ
    exact le_refl _
  | tryReadLatest =>
    simp only [applyOp, Option.some.injEq] at happ
    subst happ
    exact le_refl _
  | readLatest =>
    simp only [applyOp] at happ
    cases hl : c0.queue.read_latest with
    | none => rw [hl] at happ; exact absurd happ (by simp)
    | some w =>
      rw [hl] at happ
      simp only [Option.map_some', Option.some.injEq] at happ
      subst happ
      exact le_refl _
  | next =>
    simp only [applyOp, Option.some.injEq] at happ
    subst happ
    rw [QueueClient.next, nextLoop_queue]
  | nextB =>
    simp only [applyOp, QueueClient.next_blocking] at happ
    cases hn : c0.next with
    | mk r0 c' =>
      rw [hn] at happ
      cases r0 with
      | none => exact absurd happ (by simp)
      | some v =>
        simp only [Option.map_some', Option.some.injEq] at happ
        subst happ
        have h2 := nextLoop_queue c0.queue.size 1 c0
        rw [QueueClient.next] at hn
        rw [hn] at h2
        rw [h2]
  | catchUp m =>
    simp only [applyOp, Option.some.injEq] at happ
    subst happ
    exact le_refl _
  | latest =>
    simp only [applyOp, QueueClient.latest] at happ
    cases hl : c0.queue.read_latest with
    | none => rw [hl] at happ; exact absurd happ (by simp)
    | some w =>
      rw [hl] at happ
      simp only [Option.map_some', Option.some.injEq] at happ
      subst happ
      exact le_refl _

set_option maxRecDepth 4000 in
theorem c6_epoch_monotonic_witness :
    (((⟨⟨fun _ => ⟨(0:Nat), 0⟩, 4, 3⟩, 4⟩ : QueueClient Nat).queue.data 0).epoch
        &&& unot SENTINEL_MASK)
      ≤ (((⟨⟨setSlot (fun _ => ⟨(0:Nat), 0⟩) 0 ⟨3, 4⟩, 5, 3⟩, 4⟩ :
          QueueClient Nat).queue.data 0).epoch &&& unot SENTINEL_MASK) := by
  have happ : applyOp (⟨⟨fun _ => ⟨0, 0⟩, 4, 3⟩, 4⟩ : QueueClient Nat) (Op.push 3)
      = some ⟨⟨setSlot (fun _ => ⟨0, 0⟩) 0 ⟨3, 4⟩, 5, 3⟩, 4⟩ := rfl
  exact c6_epoch_monotonic ⟨⟨fun _ => ⟨0, 0⟩, 4, 3⟩, 4⟩ (Op.push 3)
    ⟨⟨setSlot (fun _ => ⟨0, 0⟩) 0 ⟨3, 4⟩, 5, 3⟩, 4⟩ 2
    (by decide) (by decide) (by decide) happ 0

/-- C7 counterexample: on a fresh client of capacity 4 (valid margins are
1..3), both `catch_up 0` and `catch_up 7` return normally and silently set
the cursor — no abort, no refusal. -/
theorem c7_counterexample :
    (QueueClient.new_queue (0:Nat) 4).map
      (fun c => ((c.catch_up 0).to_read, (c.catch_up 7).to_read, c.to_read))
      = some (0, 7, 4) := by decide

/-- C7 (amended): `catch_up(margin)` performs no validation of `margin`:
for every margin — including 0 and values `≥ capacity` — it returns
normally, leaves the ring untouched, and sets
`to_read = write_ptr - capacity + margin`. -/
theorem c7_catch_up_unchecked {T : Type} (c : QueueClient T) (margin : Nat)
    (hwp : c.queue.size ≤ c.queue.write_ptr)
    (hb : c.queue.write_ptr + margin < USIZE) :
    (c.catch_up margin).queue = c.queue ∧
    (c.catch_up margin).to_read = c.queue.write_ptr - c.queue.size + margin := by
  refine ⟨rfl, ?_⟩
  show (wsub c.queue.next_write_ptr c.queue.size + margin) % USIZE = _
  rw [Queue.next_write_ptr, wsub_eq hwp (by omega), Nat.mod_eq_of_lt (by omega)]

set_option maxRecDepth 4000 in
theorem c7_catch_up_unchecked_witness :
    ((⟨⟨fun _ => ⟨(0:Nat), 0⟩, 4, 3⟩, 4⟩ : QueueClient Nat).catch_up 7).queue
        = (⟨⟨fun _ => ⟨(0:Nat), 0⟩, 4, 3⟩, 4⟩ : QueueClient Nat).queue ∧
    ((⟨⟨fun _ => ⟨(0:Nat), 0⟩, 4, 3⟩, 4⟩ : QueueClient Nat).catch_up 7).to_read
        = 4 - 4 + 7 :=
  c7_catch_up_unchecked ⟨⟨fun _ => ⟨0, 0⟩, 4, 3⟩, 4⟩ 7 (by decide) (by decide)

/-- C8 counterexample: at the machine-representable requested capacity
`2^63 + 1` the rounding wraps to 0 (release mode), `idx_mask` underflows to
`usize::MAX`, and the wrapping add of `size()` brings it back to 0 — the
returned cursor's `size()` is 0, which is smaller than the request and so
is not the requested capacity rounded up to a power of two (in debug mode
the increment in `round_up_to_power_of_two` panics instead, so construction
does not succeed at all). -/
theorem c8_counterexample :
    (QueueClient.new_queue (0:Nat) (2 ^ 63 + 1)).map QueueClient.size
        = some 0 ∧
    ¬ (2 ^ 63 + 1 ≤ (0:Nat)) := by decide

/-- C8 (amended): construction with requested capacity 0 panics (modelled
`none`); for every requested capacity `1 ≤ n ≤ 2^63` construction succeeds
and the cursor's `size()` equals the rounded-up capacity (which, by C5, is
the smallest power of two `≥ n` on that range). -/
theorem c8_new_queue {T : Type} (dflt : T) (n : Nat) (h1 : 1 ≤ n)
    (h2 : n ≤ 2 ^ 63) :
    QueueClient.new_queue dflt 0 = none ∧
    ∃ c, QueueClient.new_queue dflt n = some c
      ∧ c.size = round_up_to_power_of_two n := by
  constructor
  · rfl
  · refine ⟨_, new_queue_model dflt n h1 h2, ?_⟩
    show (queueModel dflt (n - 1).size []).size = _
    rw [round_up_eq n h1 h2]
    have hs63 : (n - 1).size ≤ 63 := by
      apply Nat.size_le.mpr
      omega
    exact queueModel_size dflt _ [] hs63

set_option maxRecDepth 4000 in
theorem c8_new_queue_witness :
    QueueClient.new_queue (0:Nat) 0 = none ∧
    ∃ c, QueueClient.new_queue (0:Nat) 5 = some c
      ∧ c.size = round_up_to_power_of_two 5 :=
  c8_new_queue 0 5 (by decide) (by decide)

/-- C9.  `latest()` takes the client by shared reference and performs only
loads: in the sequential model it is a pure function of the state, and the
state after a completed `latest()` call is unchanged, so a second `latest()`
call with no intervening push returns the same value. -/
theorem c9_latest_idempotent {T : Type} (c c1 : QueueClient T) (v1 : Option T)
    (h1 : c.latest = v1 ∧ applyOp c Op.latest = some c1) :
    c1.latest = v1 := by
  obtain ⟨hv, happ⟩ := h1
  simp only [applyOp] at happ
  cases hl : c.latest with
  | none => rw [hl] at happ; exact absurd happ (by simp)
  | some w =>
    rw [hl] at happ
    simp only [Option.map_some', Option.some.injEq] at happ
    subst happ
    exact hv

set_option maxRecDepth 4000 in
theorem c9_latest_idempotent_witness :
    (⟨⟨fun _ => ⟨(5:Nat), 0⟩, 1, 0⟩, 1⟩ : QueueClient Nat).latest = some 5 := by
  have happ : applyOp (⟨⟨fun _ => ⟨(5:Nat), 0⟩, 1, 0⟩, 1⟩ : QueueClient Nat) Op.latest
      = some ⟨⟨fun _ => ⟨5, 0⟩, 1, 0⟩, 1⟩ := rfl
  have hv : (⟨⟨fun _ => ⟨(5:Nat), 0⟩, 1, 0⟩, 1⟩ : QueueClient Nat).latest = some 5 := rfl
  exact c9_latest_idempotent ⟨⟨fun _ => ⟨5, 0⟩, 1, 0⟩, 1⟩ ⟨⟨fun _ => ⟨5, 0⟩, 1, 0⟩, 1⟩
    (some 5) ⟨hv, happ⟩

/-- C10.  A sequential `push(v)` that reserves sequence `s = write_ptr`
changes only the write pointer (incremented by exactly one) and the single
slot at index `s AND idx_mask`, whose epoch word becomes `s AND NOT idx_mask`
and whose payload becomes `v`; every other slot and `idx_mask` are
unchanged. -/
theorem c10_push_frame {T : Type} (q : Queue T) (v : T) (q1 : Queue T)
    (hbound : q.write_ptr + 1 < USIZE)
    (hpush : q.push v = some q1) :
    q1.write_ptr = q.write_ptr + 1 ∧
    q1.idx_mask = q.idx_mask ∧
    q1.data (q.modu q.write_ptr) = { data := v, epoch := q.epoch q.write_ptr } ∧
    ∀ i, i ≠ q.modu q.write_ptr → q1.data i = q.data i := by
  by_cases hcas : (q.data (q.modu q.write_ptr)).epoch
      = wsub (q.epoch q.write_ptr) q.size
  · simp only [Queue.push, Cell.write, if_pos hcas, Option.some.injEq] at hpush
    subst hpush
    refine ⟨?_, rfl, ?_, ?_⟩
    · show (q.write_ptr + 1) % USIZE = _
      exact Nat.mod_eq_of_lt hbound
    · show setSlot q.data (q.modu q.write_ptr) _ (q.modu q.write_ptr) = _
      simp only [setSlot, if_true]
    · intro i hi
      show setSlot q.data (q.modu q.write_ptr) _ i = _
      simp only [setSlot, if_neg hi]
  · simp only [Queue.push, Cell.write, if_neg hcas] at hpush
    exact absurd hpush (by simp)

set_option maxRecDepth 4000 in
theorem c10_push_frame_witness :
    (⟨setSlot (fun _ => ⟨(0:Nat), 0⟩) 0 ⟨5, 2⟩, 3, 1⟩ : Queue Nat).write_ptr
        = (⟨fun _ => ⟨(0:Nat), 0⟩, 2, 1⟩ : Queue Nat).write_ptr + 1 ∧
    (⟨setSlot (fun _ => ⟨(0:Nat), 0⟩) 0 ⟨5, 2⟩, 3, 1⟩ : Queue Nat).data 1
        = (⟨fun _ => ⟨(0:Nat), 0⟩, 2, 1⟩ : Queue Nat).data 1 := by
  have hpush : Queue.push (⟨fun _ => ⟨0, 0⟩, 2, 1⟩ : Queue Nat) 5
      = some ⟨setSlot (fun _ => ⟨0, 0⟩) 0 ⟨5, 2⟩, 3, 1⟩ := rfl
  have h := c10_push_frame ⟨fun _ => ⟨0, 0⟩, 2, 1⟩ 5
    ⟨setSlot (fun _ => ⟨0, 0⟩) 0 ⟨5, 2⟩, 3, 1⟩ (by decide) hpush
  exact ⟨h.1, h.2.2.2 1 (by decide)⟩
